import Mathlib

/-!
# Verification of the `path` all-pairs shortest-paths programs

Shallow embedding of the two C programs `path-mpi.c` and `path-omp.c`.

Both programs work on flat C `int` arrays in column-major layout (entry
`(i,j)` at offset `j*n+i`).  We model a C `int` array as a `List ℤ`, a read
`a[i]` as `rd l i` (out-of-bounds reads yield the default `0`, matching the
`calloc`-zeroed allocations wherever the C code reads in bounds), and a
write `a[i] = v` as `l.set i v` (a write past the end of the modelled
buffer is a no-op).  All arithmetic is mathematical-integer arithmetic: the
values handled by the programs are bounded far below 2^31 for the inputs
considered here, so C `int` arithmetic never wraps on them.

The AVX vectors of the C code are modelled lane-wise: an `__m256i` holding
32-bit words is a family of `VECTOR_NWORDS` integer lanes, and the masks
produced by `_mm256_cmpgt_epi32` (all-ones or all-zero per lane) are
families of booleans.  `VECTOR_NWORDS` is kept as an explicit parameter `V`
(the `_PARALLEL_NODE` build fixes it to 8) so that lane-width-1 executions
can be compared with lane-width-8 executions.
-/

set_option maxRecDepth 100000
set_option maxHeartbeats 2000000

/-- Read cell `i` of a C int array modelled as a list (default 0, the
`calloc` fill value). -/
def rd (l : List ℤ) (i : ℕ) : ℤ := l.getD i 0

/-- `_mm256_testc_si256 a b` on homogeneous mask vectors: returns `true`
iff `(NOT a) AND b` is all zeros (the CF flag). -/
def vec_testc (a b : List Bool) : Bool :=
  (List.zipWith (fun x y => (!x) && y) a b).all (fun z => !z)

/-- `col_copy` from path-mpi.c lines 84-88: copy column `index` out of `l`
using stride `n`: `for (m = 0; m < n; ++m) col[m] = l[n*index+m]`. -/
def col_copy (col l : List ℤ) (index n : ℕ) : List ℤ :=
  (List.range n).foldl (fun col m => col.set m (rd l (n * index + m))) col

/-- `pack_padded_data` from path-mpi.c lines 96-102: repack an `n`-stride
matrix into an `npadded`-stride matrix. -/
def pack_padded_data (npadded n : ℕ) (lpadded l : List ℤ) : List ℤ :=
  (List.range n).foldl (fun lp j =>
    (List.range n).foldl (fun lp i => lp.set (j * npadded + i) (rd l (j * n + i))) lp) lpadded

/-- `unpack_padded_data` from path-mpi.c lines 110-116: inverse repacking. -/
def unpack_padded_data (n npadded : ℕ) (l lpadded : List ℤ) : List ℤ :=
  (List.range n).foldl (fun l j =>
    (List.range n).foldl (fun l i => l.set (j * n + i) (rd lpadded (j * npadded + i))) l) l

/-- `infinitize` (identical in both C files): every entry equal to 0 is
replaced by `n+1`. -/
def infinitize (n : ℕ) (l : List ℤ) : List ℤ :=
  (List.range (n * n)).foldl
    (fun l i => if rd l i = 0 then l.set i ((n : ℤ) + 1) else l) l

/-- `deinfinitize` (identical in both C files): every entry equal to `n+1`
is replaced by 0. -/
def deinfinitize (n : ℕ) (l : List ℤ) : List ℤ :=
  (List.range (n * n)).foldl
    (fun l i => if rd l i = (n : ℤ) + 1 then l.set i 0 else l) l

/-- The diagonal-clearing loop `for (i = 0; i < n*n; i += n+1) l[i] = 0`
of `shortest_paths`; it touches exactly the `n` offsets `j*(n+1)`. -/
def zero_diag (n : ℕ) (l : List ℤ) : List ℤ :=
  (List.range n).foldl (fun l j => l.set (j * (n + 1)) 0) l

/-- `num_padding = n % VECTOR_NWORDS` (path-mpi.c line 163). -/
def num_padding (V n : ℕ) : ℕ := n % V

/-- `num_wide_ops = (n + VECTOR_NWORDS - 1) / VECTOR_NWORDS`
(path-mpi.c line 214). -/
def num_wide_ops (V n : ℕ) : ℕ := (n + V - 1) / V

/-- `col_nvecs` (path-mpi.c line 384). -/
def col_nvecs (V n : ℕ) : ℕ := (n + V - 1) / V

/-- `col_nwords = col_nvecs * VECTOR_NWORDS` (path-mpi.c line 385): the
padded physical column height. -/
def col_nwords (V n : ℕ) : ℕ := col_nvecs V n * V

/-- `nlocal` of a rank (path-mpi.c lines 374-377): `n/nproc`, plus the
remainder `n%nproc` for the last rank. -/
def nlocal (n w r : ℕ) : ℕ := n / w + if r = w - 1 then n % w else 0

/-- `lproc_nwords = col_nwords * nlocal` for a rank (path-mpi.c line 386). -/
def lproc_nwords (V n w r : ℕ) : ℕ := col_nwords V n * nlocal n w r

/-- `displs[i] = i * lproc_nwords` where `lproc_nwords` is rank 0's value
(path-mpi.c line 402). -/
def displs (V n w r : ℕ) : ℕ := r * lproc_nwords V n w 0

/-- `scounts[i] = lproc_nwords` (rank 0's value), with
`scounts[nproc-1] += (n % nproc) * col_nwords` (path-mpi.c lines 401,405). -/
def scounts (V n w r : ℕ) : ℕ :=
  lproc_nwords V n w 0 + if r = w - 1 then n % w * col_nwords V n else 0

/-- First global column of a rank's stripe: `displs r / col_nwords`,
which simplifies to `r * (n / w)`. -/
def stripe_start (n w r : ℕ) : ℕ := r * (n / w)

/-- Pivot-owner computation of `square` (path-mpi.c lines 183-185):
`root = k / col_shift; if (root >= nproc) root--;` with
`col_shift = n / nproc`. -/
def mpi_root (n w k : ℕ) : ℕ :=
  let root := k / (n / w)
  if w ≤ root then root - 1 else root

/-- Local pivot column index on the owner (path-mpi.c line 188):
`kproc = k % col_shift`. -/
def mpi_kproc (n w k : ℕ) : ℕ := k % (n / w)

/-- Lane `m` of `sum_vec = vec_add(lik_vec, lkj_vec)` (path-mpi.c line
235): the candidate `col_k[i*V+m] + lkj`. -/
def vec_sum (V : ℕ) (col_k : List ℤ) (lkj : ℤ) (i m : ℕ) : ℤ :=
  rd col_k (i * V + m) + lkj

/-- Lane `m` of `mask_vec` after the optional padding mask (path-mpi.c
lines 251-261): the `cmpgt` comparison `lij > sum`, ANDed on the last
chunk (when `num_padding > 0`) with the padding mask whose lane `m` is set
iff `m < num_padding`. -/
def vec_mask (V n : ℕ) (col_k : List ℤ) (lkj : ℤ) (lp : List ℤ) (j i m : ℕ) : Bool :=
  decide (vec_sum V col_k lkj i m < rd lp (j * n + i * V + m)) &&
    (if 0 < num_padding V n ∧ i = num_wide_ops V n - 1
      then decide (m < num_padding V n) else true)

/-- Lane `m` of the stored vector
`vec_add(vec_and(mask, sum), vec_andnot(mask, lij))` (path-mpi.c lines
275-312): the candidate where the mask is set, the old value elsewhere. -/
def vec_store_val (V n : ℕ) (col_k : List ℤ) (lkj : ℤ) (lp : List ℤ) (j i m : ℕ) : ℤ :=
  if vec_mask V n col_k lkj lp j i m then vec_sum V col_k lkj i m
  else rd lp (j * n + i * V + m)

/-- One vectorized inner-loop iteration of the MPI `square` kernel
(path-mpi.c lines 226-313, `_PARALLEL_NODE` branch), acting on the pair
(stripe buffer, done flag).  `base = j*n + i*VECTOR_NWORDS` is the address
the C code loads and stores (note the stride `n`, not the padded stride).
The done flag is updated by `if (!vec_testc(mask_vec, zero_vec)) done = 0;`. -/
def vec_op (V n : ℕ) (col_k : List ℤ) (lkj : ℤ) (j i : ℕ)
    (st : List ℤ × Bool) : List ℤ × Bool :=
  let mask_vec : List Bool := (List.range V).map (vec_mask V n col_k lkj st.1 j i)
  let done := if vec_testc mask_vec (List.replicate V false) then st.2 else false
  ((List.range V).foldl
    (fun acc m => acc.set (j * n + i * V + m) (vec_store_val V n col_k lkj st.1 j i m)) st.1,
   done)

/-- The `j`/`i` loops of the MPI `square` kernel for one rank and one pivot
`k` (path-mpi.c lines 216-314): for each local column `j`,
`lkj = lproc[j*n+k]` is read once, then the row dimension is processed in
vector chunks. -/
def square_kernel (V n k nloc : ℕ) (col_k : List ℤ) (st : List ℤ × Bool) :
    List ℤ × Bool :=
  (List.range nloc).foldl (fun st j =>
    let lkj := rd st.1 (j * n + k)
    (List.range (num_wide_ops V n)).foldl (fun st i => vec_op V n col_k lkj j i st) st) st

/-- `MPI_Bcast(col_k, n, MPI_INT, root, ...)` receiver side: the first `n`
cells of `dst` are overwritten with the first `n` cells of `src`; the
padding tail of `dst` keeps its (uninitialised) contents. -/
def bcast_recv (n : ℕ) (dst src : List ℤ) : List ℤ :=
  (List.range n).foldl (fun d m => d.set m (rd src m)) dst

/-- Global state of the MPI computation: each rank's stripe buffer `lproc`
and each rank's pivot buffer `col_k`. -/
structure MpiSt where
  lprocs : List (List ℤ)
  cols : List (List ℤ)
deriving Repr, DecidableEq

/-- One pivot step `k` of the MPI sweep, executed by all ranks in lockstep
(path-mpi.c lines 179-314): owner computation, owner's `col_copy`,
broadcast, then every rank's `j`/`i` relaxation loops.  `none` models a
fatal MPI error: a zero `col_shift` (division by zero in C) or a broadcast
root that is not a valid rank. -/
def mpi_kstep (V n w k : ℕ) (x : MpiSt × List Bool) : Option (MpiSt × List Bool) :=
  if n / w = 0 then none else
  let root := mpi_root n w k
  if root < w then
    let kproc := mpi_kproc n w k
    let owner_col := col_copy (x.1.cols.getD root []) (x.1.lprocs.getD root []) kproc n
    let cols := (List.range w).map (fun r => bcast_recv n (x.1.cols.getD r []) owner_col)
    let res := (List.range w).map (fun r =>
      square_kernel V n k (nlocal n w r) (cols.getD r [])
        (x.1.lprocs.getD r [], x.2.getD r true))
    some (⟨res.map Prod.fst, cols⟩, res.map Prod.snd)
  else none

/-- One full call of `square` on every rank (one sweep over all pivots
`k = 0..n-1`, path-mpi.c lines 152-323).  Each rank's `done` flag starts
at 1 (`int done = 1`) and is AND-accumulated across its own pivot steps
only; the returned list holds each rank's final flag. -/
def mpi_sweep (V n w : ℕ) (st : MpiSt) : Option (MpiSt × List Bool) :=
  (List.range n).foldl (fun acc k => acc.bind (mpi_kstep V n w k))
    (some (st, List.replicate w true))

/-- The padded matrix rank 0 builds before scattering (path-mpi.c lines
408-428): infinitize, clear the diagonal, and, when padding is needed,
pack into a `calloc`-zeroed buffer of width `npadded = col_nwords`. -/
def mpi_lpadded (V n : ℕ) (l : List ℤ) : List ℤ :=
  if col_nwords V n = n then zero_diag n (infinitize n l)
  else pack_padded_data (col_nwords V n) n (List.replicate (col_nwords V n * n) 0)
    (zero_diag n (infinitize n l))

/-- The state after `infinitize`, diagonal clearing, padding and
`MPI_Scatterv` (path-mpi.c lines 408-441): rank `r` receives the
`scounts r` words of the padded matrix starting at offset `displs r`, and
owns an (uninitialised) pivot buffer `col0 r`. -/
def mpi_init (V n w : ℕ) (l : List ℤ) (col0 : ℕ → List ℤ) : MpiSt :=
  ⟨(List.range w).map (fun r =>
      ((mpi_lpadded V n l).drop (displs V n w r)).take (scounts V n w r)),
   (List.range w).map col0⟩

/-- The repeat-until-done loop `for (done = 0; !done; ) done = square(...)`
run by every rank (path-mpi.c lines 443-445).  Each rank exits on its own
flag; since the flags are only ever equal in lockstep executions, a mixed
outcome means the collectives of the next sweep are entered by only some
ranks, a fatal error (`none`).  The fuel argument bounds the number of
sweeps the model will run (the C loop has no such bound). -/
def mpi_loop (V n w : ℕ) : ℕ → MpiSt → Option MpiSt
  | 0, _ => none
  | fuel + 1, st =>
    match mpi_sweep V n w st with
    | none => none
    | some (st', dones) =>
      if dones.all (fun d => d) then some st'
      else if dones.any (fun d => d) then none
      else mpi_loop V n w fuel st'

/-- The whole MPI `shortest_paths` (path-mpi.c lines 367-471):
infinitize + diagonal, pad, scatter, sweep loop, gather
(concatenating the rank stripes back in `displs` order), unpack and
deinfinitize.  `col0 r` is the initial (uninitialised) content of rank
`r`'s `_mm_malloc`ed pivot buffer. -/
def mpi_shortest_paths (V n w : ℕ) (l : List ℤ) (col0 : ℕ → List ℤ) (fuel : ℕ) :
    Option (List ℤ) :=
  let l1 := zero_diag n (infinitize n l)
  match mpi_loop V n w fuel (mpi_init V n w l col0) with
  | none => none
  | some st =>
    let lpadded := st.lprocs.flatten
    some (if col_nwords V n = n then deinfinitize n lpadded
      else deinfinitize n (unpack_padded_data n (col_nwords V n) l1 lpadded))

/-- `transpose_array` from path-omp.c lines 35-45:
`copied[row*M+column] = A[column*M+row]`. -/
def transpose_array (M : ℕ) (A copied : List ℤ) : List ℤ :=
  (List.range M).foldl (fun c column =>
    (List.range M).foldl (fun c row => c.set (row * M + column) (rd A (column * M + row))) c)
    copied

/-- `square` from path-omp.c lines 79-138.  For every output cell `(i,j)`
the running minimum `lij` starts at `l[j*n+i]` and the `kb` loop walks
`n / VECTOR_NWORDS` full vector blocks; the block's candidate sums are
`l_transposed[i*n+kb*V+z] + l[j*n+kb*V+z]`.  The update block (store the
sums, fold the minimum into `lij`, clear `done`) is guarded by
`if (!vec_testc(mask_vec, zero_vec))`.  The result cell is written to
`lnew[j*n+i]` and the per-cell flags are AND-reduced into `done`.
`omp_kb_step` is the body of the `kb` loop. -/
def omp_kb_step (V n : ℕ) (l ltr : List ℤ) (j i : ℕ) (p : ℤ × Bool) (kb : ℕ) : ℤ × Bool :=
  let lij := p.1
  let sum : ℕ → ℤ := fun z => rd ltr (i * n + kb * V + z) + rd l (j * n + kb * V + z)
  let mask_vec : List Bool := (List.range V).map (fun z => decide (sum z < lij))
  if vec_testc mask_vec (List.replicate V false) = false then
    ((List.range V).foldl (fun lij z => if sum z < lij then sum z else lij) lij, false)
  else p

/-- The `j`/`i` loops of the OpenMP `square`: sequential model of the
`collapse(2)` parallel loop with the `reduction(&& : done)` flag. -/
def omp_square (V n : ℕ) (l ltr lnew : List ℤ) : List ℤ × Bool :=
  (List.range n).foldl (fun st j =>
    (List.range n).foldl (fun (st : List ℤ × Bool) i =>
      let inner := (List.range (n / V)).foldl (omp_kb_step V n l ltr j i) (rd l (j * n + i), st.2)
      (st.1.set (j * n + i) inner.1, inner.2)) st) (lnew, true)

/-- The sweep loop of the OpenMP `shortest_paths` (path-omp.c lines
195-201): transpose, square, `memcpy(l, lnew, ...)`, count the iteration,
repeat until `done`.  Fuel bounds the modelled number of iterations. -/
def omp_loop (V n : ℕ) : ℕ → List ℤ → List ℤ → List ℤ → ℕ → Option (List ℤ × ℕ)
  | 0, _, _, _, _ => none
  | fuel + 1, l, ltr, lnew, iters =>
    let ltr' := transpose_array n l ltr
    let sq := omp_square V n l ltr' lnew
    let l' := sq.1
    let iters' := iters + 1
    if sq.2 then some (l', iters') else omp_loop V n fuel l' ltr' sq.1 iters'

/-- The OpenMP `shortest_paths` (path-omp.c lines 182-206): infinitize and
clear the diagonal, run the sweep loop with `calloc`-zeroed `lnew` and
`l_transposed`, deinfinitize, and return the result matrix together with
the iteration count the C function returns. -/
def omp_shortest_paths (V n : ℕ) (l : List ℤ) (fuel : ℕ) : Option (List ℤ × ℕ) :=
  let l1 := zero_diag n (infinitize n l)
  match omp_loop V n fuel l1 (List.replicate (n * n) 0) (List.replicate (n * n) 0) 0 with
  | none => none
  | some (lf, iters) => some (deinfinitize n lf, iters)

/-- Result matrix of the OpenMP variant (empty list if the modelled fuel
runs out). -/
def omp_result (V n : ℕ) (l : List ℤ) (fuel : ℕ) : List ℤ :=
  ((omp_shortest_paths V n l fuel).getD ([], 0)).1

/-- Column-major adjacency matrix of the directed path `0 → 1 → 2 → 3`
(the n = 4 scenario of the specification). -/
def chain4 : List ℤ := [0,0,0,0, 1,0,0,0, 0,1,0,0, 0,0,1,0]

/-- Exact all-pairs shortest-path matrix of `chain4` in the external
0-means-unreachable convention. -/
def apsp4 : List ℤ := [0,0,0,0, 1,0,0,0, 2,1,0,0, 3,2,1,0]

/-- Column-major adjacency matrix of the directed path on 5 nodes. -/
def chain5 : List ℤ :=
  [0,0,0,0,0, 1,0,0,0,0, 0,1,0,0,0, 0,0,1,0,0, 0,0,0,1,0]

/-- Column-major adjacency matrix of the directed path on 8 nodes. -/
def chain8 : List ℤ :=
  [0,0,0,0,0,0,0,0, 1,0,0,0,0,0,0,0, 0,1,0,0,0,0,0,0, 0,0,1,0,0,0,0,0,
   0,0,0,1,0,0,0,0, 0,0,0,0,1,0,0,0, 0,0,0,0,0,1,0,0, 0,0,0,0,0,0,1,0]

/-- Column-major adjacency matrix on 3 nodes with the single edge `0 → 1`. -/
def edge3 : List ℤ := [0,0,0, 1,0,0, 0,0,0]

/-- Column-major adjacency matrix of the directed 5-cycle
`0 → 1 → 2 → 3 → 4 → 0`. -/
def cycle5 : List ℤ :=
  [0,0,0,0,1, 1,0,0,0,0, 0,1,0,0,0, 0,0,1,0,0, 0,0,0,1,0]

/-- An all-zero pivot buffer of physical length 8: the concrete
(nondeterministic in C) initial content used for the executions below. -/
def zcol8 : ℕ → List ℤ := fun _ => List.replicate 8 0

/-- Invariant of the MPI state: every entry of every stripe buffer lies in
`[0, n+1]`, and every worker's pivot buffer can physically hold the `n`
broadcast words. -/
def MpiInv (n w : ℕ) (st : MpiSt) : Prop :=
  (∀ r a, 0 ≤ rd (st.lprocs.getD r []) a ∧ rd (st.lprocs.getD r []) a ≤ (n : ℤ) + 1) ∧
  (∀ r, r < w → n ≤ (st.cols.getD r []).length)

/-- The value sets occurring in the OpenMP pipeline on a 0/1 adjacency
input: 0, 1 or the infinity proxy `n+1`. -/
def EntryVal (n : ℕ) (x : ℤ) : Prop := x = 0 ∨ x = 1 ∨ x = (n : ℤ) + 1

/-!
## Generic lemmas about the array model
-/

/-- Reading after a write: the written value at the written index (when in
bounds), the old value elsewhere. -/
theorem rd_set (l : List ℤ) (i a : ℕ) (v : ℤ) :
    rd (l.set i v) a = if i = a ∧ a < l.length then v else rd l a := by
  induction l generalizing i a with
  | nil => simp [rd]
  | cons x xs ih =>
    cases i with
    | zero =>
      cases a with
      | zero => simp [rd]
      | succ a => simp [rd]
    | succ i =>
      cases a with
      | zero => simp [rd]
      | succ a =>
        have h := ih i a
        simp only [List.set_cons_succ, rd, List.getD_cons_succ, List.length_cons] at h ⊢
        rw [h]
        by_cases h : i = a ∧ a < xs.length
        · rw [if_pos h, if_pos ⟨by omega, by omega⟩]
        · rw [if_neg h, if_neg (by omega)]

/-- An out-of-bounds read yields the default 0. -/
theorem rd_oob (l : List ℤ) (a : ℕ) (h : l.length ≤ a) : rd l a = 0 := by
  unfold rd
  rw [List.getD_eq_getElem?_getD, List.getElem?_eq_none (by omega)]
  rfl

/-- A property preserved by every step of a fold is preserved by the fold. -/
theorem foldl_preserves {β : Type _} {α : Type _} (P : β → Prop) (f : β → α → β) :
    ∀ (L : List α), (∀ st x, P st → P (f st x)) → ∀ st, P st → P (L.foldl f st) := by
  intro L
  induction L with
  | nil => intro _ st hst; simpa using hst
  | cons x xs ih => intro h st hst; exact ih (fun st y hy => h st y hy) _ (h st x hst)

/-- Variant of `foldl_preserves` that provides membership of the step
element in the folded list. -/
theorem foldl_preserves_mem {β : Type _} {α : Type _} (P : β → Prop) (f : β → α → β) :
    ∀ (L : List α), (∀ st x, x ∈ L → P st → P (f st x)) → ∀ st, P st → P (L.foldl f st) := by
  intro L
  induction L with
  | nil => intro _ st hst; simpa using hst
  | cons x xs ih =>
    intro h st hst
    exact ih (fun st y hy hP => h st y (List.mem_cons_of_mem x hy) hP) _
      (h st x (List.mem_cons_self x xs) hst)

/-- Length of a fold of writes with values independent of the accumulator. -/
theorem length_foldl_set (f : ℕ → ℤ) (L : List ℕ) (l : List ℤ) :
    (L.foldl (fun acc m => acc.set m (f m)) l).length = l.length :=
  foldl_preserves (fun acc => acc.length = l.length)
    (fun acc m => acc.set m (f m)) L (fun acc m h => by simpa using h) l rfl

/-- Characterisation of a left-to-right fold writing `f m` to cell `m` for
`m = 0..N-1`. -/
theorem rd_foldl_set (f : ℕ → ℤ) (N : ℕ) (l : List ℤ) (a : ℕ) :
    rd ((List.range N).foldl (fun acc m => acc.set m (f m)) l) a =
      if a < N ∧ a < l.length then f a else rd l a := by
  induction N with
  | zero => simp
  | succ N ih =>
    rw [List.range_succ, List.foldl_append, List.foldl_cons, List.foldl_nil, rd_set,
      length_foldl_set, ih]
    by_cases hNa : N = a
    · subst hNa
      by_cases hl : N < l.length
      · rw [if_pos ⟨rfl, hl⟩, if_pos ⟨by omega, hl⟩]
      · rw [if_neg (by omega), if_neg (by omega), if_neg (by omega)]
    · rw [if_neg (by omega)]
      by_cases h2 : a < N ∧ a < l.length
      · rw [if_pos h2, if_pos ⟨by omega, h2.2⟩]
      · rw [if_neg h2, if_neg (by omega)]

/-- A fold over a `bind`-chained option starting from `none` stays `none`. -/
theorem foldl_bind_none {β : Type _} (g : ℕ → β → Option β) (L : List ℕ) :
    L.foldl (fun acc k => acc.bind (g k)) none = none := by
  induction L with
  | nil => rfl
  | cons x xs ih => simpa using ih

/-- `_mm256_testc_si256 a 0` is identically 1: the CF flag is
`((NOT a) AND 0) == 0`, which holds for every `a`.  This is the slip that
makes the programs' change detection dead code. -/
theorem vec_testc_zero (a : List Bool) (k : ℕ) :
    vec_testc a (List.replicate k false) = true := by
  induction a generalizing k with
  | nil => simp [vec_testc]
  | cons x xs ih =>
    cases k with
    | zero => simp [vec_testc]
    | succ k =>
      simp only [vec_testc, List.replicate_succ, List.zipWith_cons_cons, List.all_cons,
        Bool.and_false, Bool.not_false, Bool.true_and]
      exact ih k

/-- Claim C1: on the specification's own n = 4 directed-path scenario the
program does not return the shortest-path matrix: the OpenMP
`shortest_paths` returns the input adjacency matrix unchanged (entry
`(0,2)` is 0, not the claimed 2) after a single iteration, because the
change-detection `vec_testc(mask_vec, zero_vec)` always returns 1 and the
whole relaxation block is dead code. -/
theorem C1_n4_chain_not_apsp :
    omp_shortest_paths 8 4 chain4 2 = some (chain4, 1) ∧ rd chain4 (2 * 4 + 0) = 0 ∧
      rd apsp4 (2 * 4 + 0) = 2 := by
  refine ⟨by decide, by decide, by decide⟩

/-- Claim C2: the sweep loop is not terminated by an AND across all
workers.  On n = 8, one worker, the chain graph, the first sweep relaxes
entries (offset 16, entry (0,2), drops from the infinity proxy 9 to 2),
yet the worker's own flag — the only thing its loop consults — is already
`true`, so the loop stops although a relaxation was observed. -/
theorem C2_done_flag_ignores_changes :
    (mpi_sweep 8 8 1 (mpi_init 8 8 1 chain8 zcol8)).map (fun x => x.2) = some [true] ∧
      (mpi_sweep 8 8 1 (mpi_init 8 8 1 chain8 zcol8)).map
        (fun x => rd (x.1.lprocs.getD 0 []) 16) = some 2 ∧
      rd ((mpi_init 8 8 1 chain8 zcol8).lprocs.getD 0 []) 16 = 9 := by
  refine ⟨by decide, by decide, by decide⟩

/-- Claim C3: the owner computation and the global-to-local translation
are wrong.  For n = 5 and 3 workers, pivot k = 4 yields owner index 3,
which is not a valid worker (the single decrement does not clamp), and the
whole run aborts; for n = 5 and 2 workers, pivot k = 4 is owned by the
last worker (rank 1, stripe `[2,5)`), but `kproc = k % (n/w) = 0`, so the
broadcast buffer is filled from global column `2*1 + 0 = 2`, not column 4. -/
theorem C3_owner_and_copy_wrong :
    mpi_root 5 3 4 = 3 ∧ ¬ mpi_root 5 3 4 < 3 ∧
      mpi_shortest_paths 8 5 3 chain5 zcol8 2 = none ∧
      mpi_root 5 2 4 = 1 ∧ mpi_kproc 5 2 4 = 0 ∧
      stripe_start 5 2 1 + mpi_kproc 5 2 4 = 2 ∧ (2 : ℕ) ≠ 4 := by
  refine ⟨by decide, by decide, by decide, by decide, by decide, by decide, by decide⟩

/-- Claim C4: padding is not neutral.  For n = 4 (not a multiple of the
lane width 8) and one worker, the lane-width-1 execution returns the exact
shortest-path matrix of the 4-chain, but the lane-width-8 execution
returns a different matrix (entry (0,2), offset 8, is 0 instead of 2): the
kernel addresses the padded stripe with stride `n` instead of the padded
stride, so columns 2 and 3 of the stripe are never written. -/
theorem C4_padding_not_neutral :
    mpi_shortest_paths 1 4 1 chain4 zcol8 2 = some apsp4 ∧
      (mpi_shortest_paths 8 4 1 chain4 zcol8 2).isSome = true ∧
      rd ((mpi_shortest_paths 8 4 1 chain4 zcol8 2).getD []) 8 = 0 ∧
      rd apsp4 8 = 2 := by
  refine ⟨by decide, by decide, by decide, by decide⟩

/-- Claim C5: the loop does not run the relaxation pass exactly twice: it
always runs it exactly once, because `vec_testc(mask_vec, zero_vec)` is
identically 1 and every sweep therefore reports "no change".  The OpenMP
variant returns iteration count 1 on the n = 4 chain, and the MPI variant
already terminates with a fuel budget of a single sweep. -/
theorem C5_loop_runs_once :
    ((omp_shortest_paths 8 4 chain4 2).getD ([], 0)).2 = 1 ∧
      (mpi_loop 8 8 1 1 (mpi_init 8 8 1 chain8 zcol8)).isSome = true := by
  refine ⟨by decide, by decide⟩

/-- Claim C10: the result depends on the worker count.  For n = 5 and the
chain graph (pivot buffers starting zeroed), running with 1 worker and
with 2 workers both complete but disagree on entry offset 5 (entry (0,1)):
0 with one worker, 1 with two workers. -/
theorem C10_worker_count_changes_result :
    (mpi_shortest_paths 8 5 1 chain5 zcol8 2).isSome = true ∧
      (mpi_shortest_paths 8 5 2 chain5 zcol8 2).isSome = true ∧
      rd ((mpi_shortest_paths 8 5 1 chain5 zcol8 2).getD []) 5 = 0 ∧
      rd ((mpi_shortest_paths 8 5 2 chain5 zcol8 2).getD []) 5 = 1 := by
  refine ⟨by decide, by decide, by decide, by decide⟩

/-- Claim C9 (counterexample): the returned matrix violates the claimed
triangle inequality, in both variants.  (a) Because 0 encodes
"unreachable": on 3 nodes with the single edge `0 → 1` the OpenMP variant
returns `result(0,1) = 1` but `result(0,2) = result(2,1) = 0`, so
`result(0,1) ≤ result(0,2) + result(2,1)` fails (at i = 0, j = 1, k = 2);
this instance would fail even for an exact shortest-paths implementation.
(b) The MPI variant violates the inequality even when both legs are
nonzero: for n = 5, two workers and the directed 5-cycle it returns
`result(3,0) = 3` while `result(3,4) = result(4,0) = 1`, so
`result(3,0) ≤ result(3,4) + result(4,0)` fails (at i = 3, j = 0, k = 4)
with both legs denoting real paths. -/
theorem C9_triangle_counterexample :
    (¬ rd (omp_result 8 3 edge3 2) (1 * 3 + 0) ≤
        rd (omp_result 8 3 edge3 2) (2 * 3 + 0) + rd (omp_result 8 3 edge3 2) (1 * 3 + 2)) ∧
      (mpi_shortest_paths 8 5 2 cycle5 zcol8 2).isSome = true ∧
      rd ((mpi_shortest_paths 8 5 2 cycle5 zcol8 2).getD []) (0 * 5 + 3) = 3 ∧
      rd ((mpi_shortest_paths 8 5 2 cycle5 zcol8 2).getD []) (4 * 5 + 3) = 1 ∧
      rd ((mpi_shortest_paths 8 5 2 cycle5 zcol8 2).getD []) (0 * 5 + 4) = 1 ∧
      ¬ rd ((mpi_shortest_paths 8 5 2 cycle5 zcol8 2).getD []) (0 * 5 + 3) ≤
          rd ((mpi_shortest_paths 8 5 2 cycle5 zcol8 2).getD []) (4 * 5 + 3) +
            rd ((mpi_shortest_paths 8 5 2 cycle5 zcol8 2).getD []) (0 * 5 + 4) := by
  refine ⟨by decide, by decide, by decide, by decide, by decide, by decide⟩

/-!
## Monotonicity of the relaxation sweep (claim C6)
-/

/-- Every lane the kernel stores is dominated by the value previously held
at that address: the store is `min(current, candidate)`. -/
theorem vec_store_val_le (V n : ℕ) (col_k : List ℤ) (lkj : ℤ) (lp : List ℤ) (j i m : ℕ) :
    vec_store_val V n col_k lkj lp j i m ≤ rd lp (j * n + i * V + m) := by
  unfold vec_store_val
  by_cases h : vec_mask V n col_k lkj lp j i m = true
  · rw [if_pos h]
    unfold vec_mask at h
    rw [Bool.and_eq_true] at h
    exact le_of_lt (of_decide_eq_true h.1)
  · rw [if_neg h]

/-- One vector operation never increases any cell of the stripe buffer. -/
theorem vec_op_mono (V n : ℕ) (col_k : List ℤ) (lkj : ℤ) (j i : ℕ) (st : List ℤ × Bool)
    (a : ℕ) : rd (vec_op V n col_k lkj j i st).1 a ≤ rd st.1 a := by
  refine foldl_preserves (fun acc => ∀ b, rd acc b ≤ rd st.1 b)
    (fun acc m => acc.set (j * n + i * V + m) (vec_store_val V n col_k lkj st.1 j i m))
    (List.range V) ?_ st.1 (fun b => le_refl _) a
  intro acc m hacc b
  rw [rd_set]
  by_cases h : j * n + i * V + m = b ∧ b < acc.length
  · rw [if_pos h, ← h.1]
    exact vec_store_val_le V n col_k lkj st.1 j i m
  · rw [if_neg h]
    exact hacc b

/-- One rank's whole `j`/`i` loop nest never increases any cell. -/
theorem square_kernel_mono (V n k nloc : ℕ) (col_k : List ℤ) (st : List ℤ × Bool) (a : ℕ) :
    rd (square_kernel V n k nloc col_k st).1 a ≤ rd st.1 a := by
  unfold square_kernel
  refine foldl_preserves (fun acc : List ℤ × Bool => ∀ b, rd acc.1 b ≤ rd st.1 b)
    _ (List.range nloc) ?_ st (fun b => le_refl _) a
  intro acc j hacc
  refine foldl_preserves (fun acc2 : List ℤ × Bool => ∀ b, rd acc2.1 b ≤ rd st.1 b)
    _ (List.range (num_wide_ops V n)) ?_ acc hacc
  intro acc2 i h2 b
  exact le_trans (vec_op_mono V n col_k (rd acc.1 (j * n + k)) j i acc2 b) (h2 b)

/-- Reading position `r < w` of a `List.map` over `List.range w`. -/
theorem getD_map_range {α : Type _} (g : ℕ → α) (w r : ℕ) (d : α) (h : r < w) :
    ((List.range w).map g).getD r d = g r := by
  rw [List.getD_eq_getElem?_getD, List.getElem?_map, List.getElem?_range h]
  rfl

/-- One pivot step never increases any cell of any rank's stripe. -/
theorem mpi_kstep_mono (V n w k : ℕ) (x out : MpiSt × List Bool)
    (hstep : mpi_kstep V n w k x = some out) (r : ℕ) (hr : r < w) (a : ℕ) :
    rd (out.1.lprocs.getD r []) a ≤ rd (x.1.lprocs.getD r []) a := by
  unfold mpi_kstep at hstep
  by_cases h0 : n / w = 0
  · rw [if_pos h0] at hstep; exact absurd hstep (by simp)
  rw [if_neg h0] at hstep
  by_cases h1 : mpi_root n w k < w
  · rw [if_pos h1] at hstep
    have hout := Option.some.inj hstep
    rw [← hout]
    simp only [List.map_map]
    rw [getD_map_range _ w r [] hr]
    exact square_kernel_mono V n k (nlocal n w r) _ _ a
  · rw [if_neg h1] at hstep; exact absurd hstep (by simp)

/-- The fold of pivot steps over any pivot list never increases any cell. -/
theorem mpi_fold_mono (V n w : ℕ) (L : List ℕ) :
    ∀ (x out : MpiSt × List Bool),
      L.foldl (fun acc k => acc.bind (mpi_kstep V n w k)) (some x) = some out →
      ∀ r, r < w → ∀ a, rd (out.1.lprocs.getD r []) a ≤ rd (x.1.lprocs.getD r []) a := by
  induction L with
  | nil =>
    intro x out h r hr a
    rw [List.foldl_nil] at h
    rw [Option.some.inj h]
  | cons k ks ih =>
    intro x out h r hr a
    rw [List.foldl_cons,
      show (some x).bind (mpi_kstep V n w k) = mpi_kstep V n w k x from rfl] at h
    cases hk : mpi_kstep V n w k x with
    | none =>
      rw [hk, foldl_bind_none] at h
      exact absurd h (by simp)
    | some mid =>
      rw [hk] at h
      exact le_trans (ih mid out h r hr a) (mpi_kstep_mono V n w k x mid hk r hr a)

/-- Claim C6: between the start and the end of a relaxation pass no matrix
entry ever increases.  Every store of the MPI kernel writes
`min(current value, pivot candidate)` (`vec_store_val_le`), so after one
full sweep (`square` on every rank) every cell of every rank's stripe
buffer is bounded by its value at the start of the sweep. -/
theorem C6_sweep_monotone (V n w : ℕ) (st : MpiSt) (out : MpiSt × List Bool)
    (h : mpi_sweep V n w st = some out) (r : ℕ) (hr : r < w) (a : ℕ) :
    rd (out.1.lprocs.getD r []) a ≤ rd (st.lprocs.getD r []) a :=
  mpi_fold_mono V n w (List.range n) (st, List.replicate w true) out h r hr a

/-- Witness for C6 at a concrete run: n = 1, one worker, the one-node
graph. -/
theorem C6_sweep_monotone_witness :
    rd ((⟨[[0]], [[0]]⟩ : MpiSt).lprocs.getD 0 []) 0 ≤
      rd ((mpi_init 1 1 1 [0] (fun _ => [0])).lprocs.getD 0 []) 0 :=
  C6_sweep_monotone 1 1 1 (mpi_init 1 1 1 [0] (fun _ => [0])) (⟨[[0]], [[0]]⟩, [true])
    (by decide) 0 (by decide) 0

/-!
## Entry bounds through the computation (claim C7)
-/

/-- Reading the empty buffer yields 0. -/
theorem rd_nil (a : ℕ) : rd [] a = 0 := rfl

/-- Every read is either the default 0 or a member of the list. -/
theorem rd_mem_or_zero (l : List ℤ) (a : ℕ) : rd l a = 0 ∨ rd l a ∈ l := by
  unfold rd
  rw [List.getD_eq_getElem?_getD]
  cases h : l[a]? with
  | none => left; rfl
  | some v =>
    right
    obtain ⟨hlt, rfl⟩ := List.getElem?_eq_some_iff.mp h
    exact List.getElem_mem hlt

/-- A pointwise property of all reads transfers to all members. -/
theorem mem_of_rd (P : ℤ → Prop) (l : List ℤ) (h : ∀ a, P (rd l a)) :
    ∀ x ∈ l, P x := by
  intro x hx
  obtain ⟨i, hi, rfl⟩ := List.mem_iff_getElem.mp hx
  have h2 := h i
  unfold rd at h2
  rwa [List.getD_eq_getElem?_getD, List.getElem?_eq_getElem hi, Option.getD_some] at h2

/-- Exact shape of `num_wide_ops`: the ceiling of `n / V`. -/
theorem num_wide_ops_eq (V n : ℕ) (hV : 0 < V) :
    num_wide_ops V n = if n % V = 0 then n / V else n / V + 1 := by
  unfold num_wide_ops
  have hqm := Nat.div_add_mod n V
  by_cases hp : n % V = 0
  · rw [if_pos hp]
    have he : n + V - 1 = V - 1 + n / V * V := by
      have hc : V * (n / V) = n / V * V := Nat.mul_comm _ _
      omega
    rw [he, Nat.add_mul_div_right _ _ hV, Nat.div_eq_of_lt (by omega), Nat.zero_add]
  · rw [if_neg hp]
    obtain ⟨p1, hp1⟩ := Nat.exists_eq_succ_of_ne_zero hp
    have hplt : n % V < V := Nat.mod_lt n hV
    have he : n + V - 1 = p1 + (n / V + 1) * V := by
      have h1 : (n / V + 1) * V = n / V * V + V := by ring
      have hc : V * (n / V) = n / V * V := Nat.mul_comm _ _
      omega
    rw [he, Nat.add_mul_div_right _ _ hV, Nat.div_eq_of_lt (by omega), Nat.zero_add]

/-- An active lane (one that survives the padding mask) always addresses a
real row `i*V + m < n` of the pivot column. -/
theorem active_idx_lt (V n i m : ℕ) (hV : 0 < V) (hi : i < num_wide_ops V n) (hm : m < V)
    (hact : (if 0 < num_padding V n ∧ i = num_wide_ops V n - 1
      then decide (m < num_padding V n) else true) = true) :
    i * V + m < n := by
  have hqm := Nat.div_add_mod n V
  have hnwo := num_wide_ops_eq V n hV
  unfold num_padding at hact
  by_cases hp : n % V = 0
  · rw [if_pos hp] at hnwo
    have hi2 : i + 1 ≤ n / V := by omega
    have h3 : (i + 1) * V ≤ n / V * V := Nat.mul_le_mul hi2 (le_refl V)
    have h4 : (i + 1) * V = i * V + V := by ring
    have h5 : V * (n / V) = n / V * V := Nat.mul_comm _ _
    omega
  · rw [if_neg hp] at hnwo
    by_cases hiL : i = num_wide_ops V n - 1
    · rw [if_pos ⟨by omega, hiL⟩] at hact
      have hm2 : m < n % V := of_decide_eq_true hact
      have hieq : i = n / V := by omega
      subst hieq
      have h5 : n / V * V = V * (n / V) := Nat.mul_comm _ _
      omega
    · have hi2 : i + 1 ≤ n / V := by omega
      have h3 : (i + 1) * V ≤ n / V * V := Nat.mul_le_mul hi2 (le_refl V)
      have h4 : (i + 1) * V = i * V + V := by ring
      have h5 : V * (n / V) = n / V * V := Nat.mul_comm _ _
      omega

/-- A stored lane stays in `[0, n+1]` when the stripe, the real pivot
entries and the `lkj` coefficient are in `[0, n+1]`. -/
theorem vec_store_val_range (V n : ℕ) (hV : 0 < V) (col_k : List ℤ) (lkj : ℤ)
    (lp : List ℤ) (j i m : ℕ) (hi : i < num_wide_ops V n) (hm : m < V)
    (hlp : ∀ b, 0 ≤ rd lp b ∧ rd lp b ≤ (n : ℤ) + 1)
    (hcol : ∀ b, b < n → 0 ≤ rd col_k b ∧ rd col_k b ≤ (n : ℤ) + 1)
    (hlkj : 0 ≤ lkj) :
    0 ≤ vec_store_val V n col_k lkj lp j i m ∧
      vec_store_val V n col_k lkj lp j i m ≤ (n : ℤ) + 1 := by
  unfold vec_store_val
  by_cases hmask : vec_mask V n col_k lkj lp j i m = true
  · rw [if_pos hmask]
    unfold vec_mask at hmask
    rw [Bool.and_eq_true] at hmask
    have hlt : vec_sum V col_k lkj i m < rd lp (j * n + i * V + m) :=
      of_decide_eq_true hmask.1
    have hidx : i * V + m < n := active_idx_lt V n i m hV hi hm hmask.2
    have hcv := hcol _ hidx
    constructor
    · unfold vec_sum at *
      linarith [hcv.1]
    · exact le_trans (le_of_lt hlt) (hlp _).2
  · rw [if_neg hmask]
    exact hlp _

/-- One vector operation keeps every stripe cell in `[0, n+1]`. -/
theorem vec_op_range (V n : ℕ) (hV : 0 < V) (col_k : List ℤ) (lkj : ℤ) (j i : ℕ)
    (hi : i < num_wide_ops V n) (st : List ℤ × Bool)
    (hlp : ∀ b, 0 ≤ rd st.1 b ∧ rd st.1 b ≤ (n : ℤ) + 1)
    (hcol : ∀ b, b < n → 0 ≤ rd col_k b ∧ rd col_k b ≤ (n : ℤ) + 1)
    (hlkj : 0 ≤ lkj) :
    ∀ b, 0 ≤ rd (vec_op V n col_k lkj j i st).1 b ∧
      rd (vec_op V n col_k lkj j i st).1 b ≤ (n : ℤ) + 1 := by
  refine foldl_preserves_mem (fun acc => ∀ b, 0 ≤ rd acc b ∧ rd acc b ≤ (n : ℤ) + 1)
    (fun acc m => acc.set (j * n + i * V + m) (vec_store_val V n col_k lkj st.1 j i m))
    (List.range V) ?_ st.1 hlp
  intro acc m hmem hacc b
  rw [rd_set]
  by_cases h : j * n + i * V + m = b ∧ b < acc.length
  · rw [if_pos h]
    exact vec_store_val_range V n hV col_k lkj st.1 j i m hi (List.mem_range.mp hmem)
      hlp hcol hlkj
  · rw [if_neg h]
    exact hacc b

/-- One rank's whole `j`/`i` loop nest keeps every stripe cell in
`[0, n+1]`. -/
theorem square_kernel_range (V n k nloc : ℕ) (hV : 0 < V) (col_k : List ℤ)
    (hcol : ∀ b, b < n → 0 ≤ rd col_k b ∧ rd col_k b ≤ (n : ℤ) + 1)
    (st : List ℤ × Bool)
    (hlp : ∀ b, 0 ≤ rd st.1 b ∧ rd st.1 b ≤ (n : ℤ) + 1) :
    ∀ b, 0 ≤ rd (square_kernel V n k nloc col_k st).1 b ∧
      rd (square_kernel V n k nloc col_k st).1 b ≤ (n : ℤ) + 1 := by
  unfold square_kernel
  refine foldl_preserves
    (fun acc : List ℤ × Bool => ∀ b, 0 ≤ rd acc.1 b ∧ rd acc.1 b ≤ (n : ℤ) + 1)
    _ (List.range nloc) ?_ st hlp
  intro acc j hacc
  refine foldl_preserves_mem
    (fun acc2 : List ℤ × Bool => ∀ b, 0 ≤ rd acc2.1 b ∧ rd acc2.1 b ≤ (n : ℤ) + 1)
    _ (List.range (num_wide_ops V n)) ?_ acc hacc
  intro acc2 i hiL h2
  exact vec_op_range V n hV col_k (rd acc.1 (j * n + k)) j i (List.mem_range.mp hiL)
    acc2 h2 hcol (hacc (j * n + k)).1

/-- Reading the result of `col_copy`. -/
theorem rd_col_copy (col l : List ℤ) (index n : ℕ) (a : ℕ) :
    rd (col_copy col l index n) a =
      if a < n ∧ a < col.length then rd l (n * index + a) else rd col a :=
  rd_foldl_set (fun m => rd l (n * index + m)) n col a

/-- Reading the result of a broadcast reception. -/
theorem rd_bcast_recv (n : ℕ) (dst src : List ℤ) (a : ℕ) :
    rd (bcast_recv n dst src) a =
      if a < n ∧ a < dst.length then rd src a else rd dst a :=
  rd_foldl_set (fun m => rd src m) n dst a

/-- `col_copy` does not change the buffer length. -/
theorem length_col_copy (col l : List ℤ) (index n : ℕ) :
    (col_copy col l index n).length = col.length :=
  length_foldl_set _ _ _

/-- Broadcast reception does not change the buffer length. -/
theorem length_bcast_recv (n : ℕ) (dst src : List ℤ) :
    (bcast_recv n dst src).length = dst.length :=
  length_foldl_set _ _ _

/-- One pivot step preserves the `[0, n+1]`-bounds invariant. -/
theorem mpi_kstep_inv (V n w k : ℕ) (hV : 0 < V) (x out : MpiSt × List Bool)
    (hstep : mpi_kstep V n w k x = some out) (hx : MpiInv n w x.1) : MpiInv n w out.1 := by
  unfold mpi_kstep at hstep
  by_cases h0 : n / w = 0
  · rw [if_pos h0] at hstep; exact absurd hstep (by simp)
  rw [if_neg h0] at hstep
  by_cases h1 : mpi_root n w k < w
  swap
  · rw [if_neg h1] at hstep; exact absurd hstep (by simp)
  rw [if_pos h1] at hstep
  obtain ⟨hlp, hcl⟩ := hx
  have hcolval : ∀ r, r < w → ∀ b, b < n →
      0 ≤ rd (bcast_recv n (x.1.cols.getD r [])
        (col_copy (x.1.cols.getD (mpi_root n w k) []) (x.1.lprocs.getD (mpi_root n w k) [])
          (mpi_kproc n w k) n)) b ∧
      rd (bcast_recv n (x.1.cols.getD r [])
        (col_copy (x.1.cols.getD (mpi_root n w k) []) (x.1.lprocs.getD (mpi_root n w k) [])
          (mpi_kproc n w k) n)) b ≤ (n : ℤ) + 1 := by
    intro r hr b hb
    rw [rd_bcast_recv, if_pos ⟨hb, by have := hcl r hr; omega⟩, rd_col_copy,
      if_pos ⟨hb, by have := hcl (mpi_root n w k) h1; have := length_col_copy; omega⟩]
    exact hlp (mpi_root n w k) _
  obtain rfl : _ = out := Option.some.inj hstep
  constructor
  · intro r a
    by_cases hr : r < w
    · show 0 ≤ rd ((((List.range w).map _).map Prod.fst).getD r []) a ∧ _
      rw [List.map_map, getD_map_range _ w r [] hr]
      refine square_kernel_range V n k (nlocal n w r) hV _ ?_ _ (fun b => hlp r b) a
      intro b hb
      rw [getD_map_range _ w r [] hr]
      exact hcolval r hr b hb
    · show 0 ≤ rd ((((List.range w).map _).map Prod.fst).getD r []) a ∧ _
      rw [List.getD_eq_default _ _ (by simpa using Nat.le_of_not_lt hr), rd_nil]
      constructor
      · exact le_refl 0
      · omega
  · intro r hr
    show n ≤ (((List.range w).map _).getD r []).length
    rw [getD_map_range _ w r [] hr, length_bcast_recv]
    exact hcl r hr

/-- The fold of pivot steps preserves the bounds invariant. -/
theorem mpi_fold_inv (V n w : ℕ) (hV : 0 < V) (L : List ℕ) :
    ∀ (x out : MpiSt × List Bool),
      L.foldl (fun acc k => acc.bind (mpi_kstep V n w k)) (some x) = some out →
      MpiInv n w x.1 → MpiInv n w out.1 := by
  induction L with
  | nil =>
    intro x out h hx
    rw [List.foldl_nil] at h
    rwa [← Option.some.inj h]
  | cons k ks ih =>
    intro x out h hx
    rw [List.foldl_cons,
      show (some x).bind (mpi_kstep V n w k) = mpi_kstep V n w k x from rfl] at h
    cases hk : mpi_kstep V n w k x with
    | none =>
      rw [hk, foldl_bind_none] at h
      exact absurd h (by simp)
    | some mid =>
      rw [hk] at h
      exact ih mid out h (mpi_kstep_inv V n w k hV x mid hk hx)

/-- `infinitize` keeps all reads in `[0, n+1]` when the input reads are. -/
theorem rd_range_infinitize (n : ℕ) (l : List ℤ)
    (h : ∀ a, 0 ≤ rd l a ∧ rd l a ≤ (n : ℤ) + 1) :
    ∀ a, 0 ≤ rd (infinitize n l) a ∧ rd (infinitize n l) a ≤ (n : ℤ) + 1 := by
  unfold infinitize
  refine foldl_preserves (fun acc => ∀ b, 0 ≤ rd acc b ∧ rd acc b ≤ (n : ℤ) + 1)
    _ (List.range (n * n)) ?_ l h
  intro acc i hacc b
  by_cases hc : rd acc i = 0
  · rw [if_pos hc, rd_set]
    by_cases h2 : i = b ∧ b < acc.length
    · rw [if_pos h2]
      omega
    · rw [if_neg h2]; exact hacc b
  · rw [if_neg hc]; exact hacc b

/-- Clearing the diagonal keeps all reads in `[0, n+1]`. -/
theorem rd_range_zero_diag (n : ℕ) (l : List ℤ)
    (h : ∀ a, 0 ≤ rd l a ∧ rd l a ≤ (n : ℤ) + 1) :
    ∀ a, 0 ≤ rd (zero_diag n l) a ∧ rd (zero_diag n l) a ≤ (n : ℤ) + 1 := by
  unfold zero_diag
  refine foldl_preserves (fun acc => ∀ b, 0 ≤ rd acc b ∧ rd acc b ≤ (n : ℤ) + 1)
    _ (List.range n) ?_ l h
  intro acc j hacc b
  rw [rd_set]
  by_cases h2 : j * (n + 1) = b ∧ b < acc.length
  · rw [if_pos h2]; omega
  · rw [if_neg h2]; exact hacc b

/-- Packing into the padded layout keeps all reads in `[0, n+1]`. -/
theorem rd_range_pack (npadded n : ℕ) (lpadded l : List ℤ)
    (hl : ∀ a, 0 ≤ rd l a ∧ rd l a ≤ (n : ℤ) + 1)
    (hlp : ∀ a, 0 ≤ rd lpadded a ∧ rd lpadded a ≤ (n : ℤ) + 1) :
    ∀ a, 0 ≤ rd (pack_padded_data npadded n lpadded l) a ∧
      rd (pack_padded_data npadded n lpadded l) a ≤ (n : ℤ) + 1 := by
  unfold pack_padded_data
  refine foldl_preserves (fun acc => ∀ b, 0 ≤ rd acc b ∧ rd acc b ≤ (n : ℤ) + 1)
    _ (List.range n) ?_ lpadded hlp
  intro acc j hacc
  refine foldl_preserves (fun acc2 => ∀ b, 0 ≤ rd acc2 b ∧ rd acc2 b ≤ (n : ℤ) + 1)
    _ (List.range n) ?_ acc hacc
  intro acc2 i hacc2 b
  rw [rd_set]
  by_cases h2 : j * npadded + i = b ∧ b < acc2.length
  · rw [if_pos h2]; exact hl _
  · rw [if_neg h2]; exact hacc2 b

/-- Unfolding the stripe component of the scattered state. -/
theorem mpi_init_lprocs (V n w : ℕ) (l : List ℤ) (col0 : ℕ → List ℤ) :
    (mpi_init V n w l col0).lprocs = (List.range w).map (fun r =>
      ((mpi_lpadded V n l).drop (displs V n w r)).take (scounts V n w r)) := rfl

/-- Unfolding the pivot-buffer component of the scattered state. -/
theorem mpi_init_cols (V n w : ℕ) (l : List ℤ) (col0 : ℕ → List ℤ) :
    (mpi_init V n w l col0).cols = (List.range w).map col0 := rfl

/-- The scattered initial state satisfies the bounds invariant whenever the
input matrix does and the pivot buffers are large enough. -/
theorem mpi_init_inv (V n w : ℕ) (l : List ℤ) (col0 : ℕ → List ℤ)
    (hl : ∀ a, 0 ≤ rd l a ∧ rd l a ≤ (n : ℤ) + 1)
    (hc : ∀ r, r < w → n ≤ (col0 r).length) :
    MpiInv n w (mpi_init V n w l col0) := by
  have hl1 : ∀ a, 0 ≤ rd (zero_diag n (infinitize n l)) a ∧
      rd (zero_diag n (infinitize n l)) a ≤ (n : ℤ) + 1 :=
    rd_range_zero_diag n _ (rd_range_infinitize n l hl)
  have hpad : ∀ a, 0 ≤ rd (mpi_lpadded V n l) a ∧ rd (mpi_lpadded V n l) a ≤ (n : ℤ) + 1 := by
    unfold mpi_lpadded
    by_cases hE : col_nwords V n = n
    · rw [if_pos hE]; exact hl1
    · rw [if_neg hE]
      refine rd_range_pack _ n _ _ hl1 ?_
      intro a
      rcases rd_mem_or_zero (List.replicate (col_nwords V n * n) 0) a with h | h
      · omega
      · have := List.eq_of_mem_replicate h
        omega
  constructor
  · intro r a
    rw [mpi_init_lprocs]
    by_cases hr : r < w
    · rw [getD_map_range _ w r [] hr]
      rcases rd_mem_or_zero (((mpi_lpadded V n l).drop (displs V n w r)).take
        (scounts V n w r)) a with h | h
      · rw [h]; omega
      · have hmem : rd (((mpi_lpadded V n l).drop (displs V n w r)).take
            (scounts V n w r)) a ∈ mpi_lpadded V n l :=
          List.drop_subset _ _ (List.take_subset _ _ h)
        exact mem_of_rd (fun v => 0 ≤ v ∧ v ≤ (n : ℤ) + 1) _ hpad _ hmem
    · rw [List.getD_eq_default _ _ (by simpa using Nat.le_of_not_lt hr), rd_nil]
      omega
  · intro r hr
    rw [mpi_init_cols, getD_map_range _ w r [] hr]
    exact hc r hr

/-- Claim C7: after infinitization every matrix entry stays in `[0, n+1]`
through the whole computation, and every candidate sum the kernel actually
compares on an active lane is `(pivot entry) + (stripe entry) ≤ 2*(n+1)`,
so no 32-bit overflow can occur whenever `2*(n+1)` is representable.
Stated as: the scattered state satisfies the bounds invariant, every sweep
preserves it, and under it every active candidate sum is bounded. -/
theorem C7_entries_bounded (V n w : ℕ) (hV : 0 < V) (l : List ℤ) (col0 : ℕ → List ℤ)
    (hl : ∀ a, 0 ≤ rd l a ∧ rd l a ≤ (n : ℤ) + 1)
    (hc : ∀ r, r < w → n ≤ (col0 r).length) :
    MpiInv n w (mpi_init V n w l col0) ∧
      (∀ st out, MpiInv n w st → mpi_sweep V n w st = some out → MpiInv n w out.1) ∧
      (∀ (lp col_k : List ℤ) (lkj : ℤ) (j i m : ℕ),
        (∀ b, 0 ≤ rd lp b ∧ rd lp b ≤ (n : ℤ) + 1) →
        (∀ b, b < n → 0 ≤ rd col_k b ∧ rd col_k b ≤ (n : ℤ) + 1) →
        0 ≤ lkj → lkj ≤ (n : ℤ) + 1 →
        i < num_wide_ops V n → m < V →
        vec_mask V n col_k lkj lp j i m = true →
        vec_sum V col_k lkj i m ≤ 2 * ((n : ℤ) + 1)) := by
  refine ⟨mpi_init_inv V n w l col0 hl hc, ?_, ?_⟩
  · intro st out hst hsweep
    exact mpi_fold_inv V n w hV (List.range n) (st, List.replicate w true) out hsweep hst
  · intro lp col_k lkj j i m hlp hcol hlkj0 hlkj1 hi hm hmask
    unfold vec_mask at hmask
    rw [Bool.and_eq_true] at hmask
    have hidx : i * V + m < n := active_idx_lt V n i m hV hi hm hmask.2
    have hcv := hcol _ hidx
    unfold vec_sum
    linarith [hcv.2]

/-- Witness for C7 at a concrete configuration: lane width 1, n = 1, one
worker, the one-node graph. -/
theorem C7_entries_bounded_witness :
    MpiInv 1 1 (mpi_init 1 1 1 [0] (fun _ => [0])) ∧
      (∀ st out, MpiInv 1 1 st → mpi_sweep 1 1 1 st = some out → MpiInv 1 1 out.1) ∧
      (∀ (lp col_k : List ℤ) (lkj : ℤ) (j i m : ℕ),
        (∀ b, 0 ≤ rd lp b ∧ rd lp b ≤ (1 : ℤ) + 1) →
        (∀ b, b < 1 → 0 ≤ rd col_k b ∧ rd col_k b ≤ (1 : ℤ) + 1) →
        0 ≤ lkj → lkj ≤ (1 : ℤ) + 1 →
        i < num_wide_ops 1 1 → m < 1 →
        vec_mask 1 1 col_k lkj lp j i m = true →
        vec_sum 1 col_k lkj i m ≤ 2 * ((1 : ℤ) + 1)) :=
  C7_entries_bounded 1 1 1 (by decide) [0] (fun _ => [0])
    (by
      intro a
      cases a with
      | zero => constructor <;> simp [rd]
      | succ a => constructor <;> simp [rd])
    (by intro r _; simp)

/-!
## The stripe decomposition (claim C8)
-/

/-- Any worker whose stripe contains column `c` is
`min (c / (n/w)) (w-1)`: the stripes are disjoint. -/
theorem stripe_owner_unique (n w c r : ℕ) (h1 : 1 ≤ w) (h2 : w ≤ n)
    (hr : r < w) (hs : stripe_start n w r ≤ c)
    (he : c < stripe_start n w r + nlocal n w r) :
    r = min (c / (n / w)) (w - 1) := by
  have hq1 : 1 ≤ n / w := (Nat.one_le_div_iff (by omega)).mpr h2
  unfold stripe_start at hs he
  unfold nlocal at he
  by_cases hrl : r = w - 1
  · subst hrl
    have hle : w - 1 ≤ c / (n / w) := by
      rw [Nat.le_div_iff_mul_le (by omega)]
      exact hs
    exact (Nat.min_eq_right hle).symm
  · rw [if_neg hrl] at he
    have hmul : (r + 1) * (n / w) = r * (n / w) + n / w := by ring
    have hdiv : c / (n / w) = r := Nat.div_eq_of_lt_le hs (by omega)
    rw [hdiv]
    exact (Nat.min_eq_left (by omega)).symm

/-- Claim C8: the stripe decomposition partitions the columns `[0, n)`
exactly: for `1 ≤ w ≤ n` every worker but the last owns `n/w` columns, the
last owns `n/w + n%w`, the scatter offsets and counts are exactly
`col_nwords` times the column offsets and counts, and every column `c < n`
belongs to exactly one worker's half-open range. -/
theorem C8_stripes_partition (n w : ℕ) (h1 : 1 ≤ w) (h2 : w ≤ n) :
    (∀ r, r + 1 < w → nlocal n w r = n / w) ∧
    nlocal n w (w - 1) = n / w + n % w ∧
    (∀ V r, displs V n w r = col_nwords V n * stripe_start n w r ∧
      (r < w → scounts V n w r = col_nwords V n * nlocal n w r)) ∧
    (∀ c, c < n → ∃! r, r < w ∧ stripe_start n w r ≤ c ∧
      c < stripe_start n w r + nlocal n w r) := by
  have hz : nlocal n w 0 = n / w := by
    unfold nlocal
    by_cases hw : (0 : ℕ) = w - 1
    · rw [if_pos hw]
      have hw1 : w = 1 := by omega
      subst hw1
      rw [Nat.mod_one]
      omega
    · rw [if_neg hw]
      omega
  refine ⟨?_, ?_, ?_, ?_⟩
  · intro r hr
    unfold nlocal
    rw [if_neg (by omega)]
    omega
  · unfold nlocal
    rw [if_pos rfl]
  · intro V r
    constructor
    · unfold displs lproc_nwords
      rw [hz]
      unfold stripe_start
      ring
    · intro hr
      unfold scounts lproc_nwords
      rw [hz]
      by_cases hrl : r = w - 1
      · rw [if_pos hrl]
        unfold nlocal
        rw [if_pos hrl]
        ring
      · rw [if_neg hrl]
        unfold nlocal
        rw [if_neg hrl]
        ring
  · intro c hc
    have hq1 : 1 ≤ n / w := (Nat.one_le_div_iff (by omega)).mpr h2
    have hqm := Nat.div_add_mod n w
    have hcd := Nat.div_add_mod c (n / w)
    have hcdlt : c % (n / w) < n / w := Nat.mod_lt c (by omega)
    refine ⟨min (c / (n / w)) (w - 1), ⟨by omega, ?_, ?_⟩, ?_⟩
    · unfold stripe_start
      by_cases hbig : c / (n / w) ≤ w - 1
      · rw [Nat.min_eq_left hbig]
        have hcm := Nat.mul_comm (c / (n / w)) (n / w)
        omega
      · rw [Nat.min_eq_right (by omega)]
        have hmm : (w - 1) * (n / w) ≤ c / (n / w) * (n / w) :=
          Nat.mul_le_mul (by omega) (le_refl _)
        have hcm := Nat.mul_comm (c / (n / w)) (n / w)
        omega
    · unfold stripe_start nlocal
      by_cases hbig : c / (n / w) < w - 1
      · rw [Nat.min_eq_left (by omega), if_neg (by omega)]
        have hcm := Nat.mul_comm (c / (n / w)) (n / w)
        omega
      · rw [Nat.min_eq_right (by omega), if_pos rfl]
        have hw1 : w - 1 + 1 = w := by omega
        have hmul : w * (n / w) = (w - 1) * (n / w) + n / w := by
          have h' : (w - 1 + 1) * (n / w) = (w - 1) * (n / w) + n / w := by ring
          rw [hw1] at h'
          exact h'.symm.symm
        omega
    · intro r' hmem
      obtain ⟨hr'w, hs, he⟩ := hmem
      exact stripe_owner_unique n w c r' h1 h2 hr'w hs he

/-- Witness for C8 at the concrete decomposition n = 5, w = 2. -/
theorem C8_stripes_partition_witness :
    (∀ r, r + 1 < 2 → nlocal 5 2 r = 5 / 2) ∧
    nlocal 5 2 (2 - 1) = 5 / 2 + 5 % 2 ∧
    (∀ V r, displs V 5 2 r = col_nwords V 5 * stripe_start 5 2 r ∧
      (r < 2 → scounts V 5 2 r = col_nwords V 5 * nlocal 5 2 r)) ∧
    (∀ c, c < 5 → ∃! r, r < 2 ∧ stripe_start 5 2 r ≤ c ∧
      c < stripe_start 5 2 r + nlocal 5 2 r) :=
  C8_stripes_partition 5 2 (by decide) (by decide)

/-!
## The OpenMP pipeline on 0/1 inputs (claim C9)
-/

/-- One `kb` step of the OpenMP kernel is the identity: its whole body is
guarded by `if (!vec_testc(mask_vec, zero_vec))`, which is never taken. -/
theorem omp_kb_step_id (V n : ℕ) (l ltr : List ℤ) (j i : ℕ) (p : ℤ × Bool) (kb : ℕ) :
    omp_kb_step V n l ltr j i p kb = p := by
  unfold omp_kb_step
  simp [vec_testc_zero]

/-- The whole `kb` loop of the OpenMP kernel is the identity. -/
theorem omp_inner_id (V n : ℕ) (l ltr : List ℤ) (j i : ℕ) (p0 : ℤ × Bool) (L : List ℕ) :
    L.foldl (omp_kb_step V n l ltr j i) p0 = p0 := by
  induction L with
  | nil => rfl
  | cons x xs ih => rw [List.foldl_cons, omp_kb_step_id]; exact ih

/-- The inner copy loop splits off the untouched done flag. -/
theorem omp_square_fold_inner (n : ℕ) (l : List ℤ) (j : ℕ) (L : List ℕ) :
    ∀ st : List ℤ × Bool,
      L.foldl (fun st i => (st.1.set (j * n + i) (rd l (j * n + i)), st.2)) st =
      (L.foldl (fun acc i => acc.set (j * n + i) (rd l (j * n + i))) st.1, st.2) := by
  induction L with
  | nil => intro st; rfl
  | cons x xs ih => intro st; rw [List.foldl_cons, List.foldl_cons, ih]

/-- The outer copy loop splits off the untouched done flag. -/
theorem omp_square_fold_outer (n : ℕ) (l : List ℤ) (L : List ℕ) :
    ∀ st : List ℤ × Bool,
      L.foldl (fun st j => (List.range n).foldl
        (fun st i => (st.1.set (j * n + i) (rd l (j * n + i)), st.2)) st) st =
      (L.foldl (fun acc j => (List.range n).foldl
        (fun acc i => acc.set (j * n + i) (rd l (j * n + i))) acc) st.1, st.2) := by
  induction L with
  | nil => intro st; rfl
  | cons x xs ih =>
    intro st
    rw [List.foldl_cons, List.foldl_cons, omp_square_fold_inner, ih]

/-- The OpenMP `square` only copies `l` into `lnew` and reports `done`:
the relaxation block is dead code because of the `vec_testc` slip. -/
theorem omp_square_eq (V n : ℕ) (l ltr lnew : List ℤ) :
    omp_square V n l ltr lnew =
      ((List.range n).foldl (fun acc j => (List.range n).foldl
        (fun acc i => acc.set (j * n + i) (rd l (j * n + i))) acc) lnew, true) := by
  unfold omp_square
  simp only [omp_inner_id]
  rw [omp_square_fold_outer]

/-- The OpenMP `square` always returns 1 (`done`). -/
theorem omp_square_done (V n : ℕ) (l ltr lnew : List ℤ) :
    (omp_square V n l ltr lnew).2 = true := by
  rw [omp_square_eq]

/-- Any positive fuel runs the OpenMP sweep loop exactly once. -/
theorem omp_loop_succ (V n : ℕ) (fuel : ℕ) (l ltr lnew : List ℤ) (iters : ℕ) :
    omp_loop V n (fuel + 1) l ltr lnew iters =
      some ((omp_square V n l (transpose_array n l ltr) lnew).1, iters + 1) := by
  unfold omp_loop
  simp [omp_square_done]

/-- `infinitize` maps 0/1 matrices into `{0, 1, n+1}` matrices. -/
theorem rdE_infinitize (n : ℕ) (l : List ℤ) (h : ∀ a, rd l a = 0 ∨ rd l a = 1) :
    ∀ a, EntryVal n (rd (infinitize n l) a) := by
  unfold infinitize
  refine foldl_preserves (fun acc => ∀ b, EntryVal n (rd acc b)) _ (List.range (n * n)) ?_ l ?_
  · intro acc i hacc b
    by_cases hc : rd acc i = 0
    · rw [if_pos hc, rd_set]
      by_cases h2 : i = b ∧ b < acc.length
      · rw [if_pos h2]; right; right; rfl
      · rw [if_neg h2]; exact hacc b
    · rw [if_neg hc]; exact hacc b
  · intro b
    rcases h b with h' | h'
    · left; exact h'
    · right; left; exact h'

/-- Clearing the diagonal stays within `{0, 1, n+1}`. -/
theorem rdE_zero_diag (n : ℕ) (l : List ℤ) (h : ∀ a, EntryVal n (rd l a)) :
    ∀ a, EntryVal n (rd (zero_diag n l) a) := by
  unfold zero_diag
  refine foldl_preserves (fun acc => ∀ b, EntryVal n (rd acc b)) _ (List.range n) ?_ l h
  intro acc j hacc b
  rw [rd_set]
  by_cases h2 : j * (n + 1) = b ∧ b < acc.length
  · rw [if_pos h2]; left; rfl
  · rw [if_neg h2]; exact hacc b

/-- Reading an all-zero buffer. -/
theorem rd_replicate_zero (N a : ℕ) : rd (List.replicate N (0 : ℤ)) a = 0 := by
  rcases rd_mem_or_zero (List.replicate N (0 : ℤ)) a with h | h
  · exact h
  · exact List.eq_of_mem_replicate h

/-- The copy fold of the OpenMP `square` stays within `{0, 1, n+1}`. -/
theorem rdE_write_fold (n : ℕ) (l lnew : List ℤ)
    (hl : ∀ a, EntryVal n (rd l a)) (hnew : ∀ a, EntryVal n (rd lnew a)) :
    ∀ a, EntryVal n (rd ((List.range n).foldl (fun acc j => (List.range n).foldl
      (fun acc i => acc.set (j * n + i) (rd l (j * n + i))) acc) lnew) a) := by
  refine foldl_preserves (fun acc => ∀ b, EntryVal n (rd acc b)) _ (List.range n) ?_ lnew hnew
  intro acc j hacc
  refine foldl_preserves (fun acc2 => ∀ b, EntryVal n (rd acc2 b)) _ (List.range n) ?_ acc hacc
  intro acc2 i hacc2 b
  rw [rd_set]
  by_cases h2 : j * n + i = b ∧ b < acc2.length
  · rw [if_pos h2]; exact hl _
  · rw [if_neg h2]; exact hacc2 b

/-- Length is preserved by the `deinfinitize`-shaped fold. -/
theorem length_deinf_fold (n : ℕ) (L : List ℕ) (l : List ℤ) :
    (L.foldl (fun acc i => if rd acc i = (n : ℤ) + 1 then acc.set i 0 else acc) l).length =
      l.length := by
  refine foldl_preserves (fun acc => acc.length = l.length) _ L ?_ l rfl
  intro acc i h
  by_cases hc : rd acc i = (n : ℤ) + 1
  · rw [if_pos hc, List.length_set]; exact h
  · rw [if_neg hc]; exact h

/-- Characterisation of the `deinfinitize` fold over `range N`. -/
theorem rd_deinf_fold (n N : ℕ) (l : List ℤ) (a : ℕ) :
    rd ((List.range N).foldl
        (fun acc i => if rd acc i = (n : ℤ) + 1 then acc.set i 0 else acc) l) a =
      if a < N ∧ a < l.length ∧ rd l a = (n : ℤ) + 1 then 0 else rd l a := by
  induction N generalizing a with
  | zero => simp
  | succ N ih =>
    rw [List.range_succ, List.foldl_append, List.foldl_cons, List.foldl_nil]
    have hN : rd ((List.range N).foldl
        (fun acc i => if rd acc i = (n : ℤ) + 1 then acc.set i 0 else acc) l) N = rd l N := by
      rw [ih N, if_neg (by omega)]
    have hlen := length_deinf_fold n (List.range N) l
    rw [hN]
    by_cases hp : rd l N = (n : ℤ) + 1
    · rw [if_pos hp, rd_set, hlen, ih a]
      by_cases hNa : N = a
      · subst hNa
        by_cases hl2 : N < l.length
        · rw [if_pos ⟨rfl, hl2⟩, if_pos ⟨by omega, hl2, hp⟩]
        · rw [if_neg (by omega), if_neg (by omega), if_neg (by omega)]
      · rw [if_neg (by omega)]
        by_cases h2 : a < N ∧ a < l.length ∧ rd l a = (n : ℤ) + 1
        · rw [if_pos h2, if_pos ⟨by omega, h2.2⟩]
        · rw [if_neg h2, if_neg (by omega)]
    · rw [if_neg hp, ih a]
      by_cases h2 : a < N ∧ a < l.length ∧ rd l a = (n : ℤ) + 1
      · rw [if_pos h2, if_pos ⟨by omega, h2.2⟩]
      · rw [if_neg h2]
        by_cases h3 : a < N + 1 ∧ a < l.length ∧ rd l a = (n : ℤ) + 1
        · exfalso
          have hNa : a = N := by omega
          subst hNa
          exact hp h3.2.2
        · rw [if_neg h3]

/-- Reading the result of `deinfinitize`. -/
theorem rd_deinfinitize (n : ℕ) (l : List ℤ) (a : ℕ) :
    rd (deinfinitize n l) a =
      if a < n * n ∧ a < l.length ∧ rd l a = (n : ℤ) + 1 then 0 else rd l a :=
  rd_deinf_fold n (n * n) l a

/-- On a 0/1 adjacency input every in-range entry of the OpenMP result is 0
or 1 (with positive fuel the loop returns after its single iteration). -/
theorem omp_result_01 (V n : ℕ) (l : List ℤ) (f : ℕ) (hn : 1 ≤ n)
    (hl : ∀ a, rd l a = 0 ∨ rd l a = 1) (a : ℕ) (ha : a < n * n) :
    rd (omp_result V n l (f + 1)) a = 0 ∨ rd (omp_result V n l (f + 1)) a = 1 := by
  have hres : omp_result V n l (f + 1) = deinfinitize n ((List.range n).foldl
      (fun acc j => (List.range n).foldl (fun acc i => acc.set (j * n + i)
        (rd (zero_diag n (infinitize n l)) (j * n + i))) acc)
      (List.replicate (n * n) 0)) := by
    simp only [omp_result, omp_shortest_paths, omp_loop_succ, omp_square_eq, Option.getD_some]
  rw [hres]
  have hS : ∀ b, EntryVal n (rd ((List.range n).foldl
      (fun acc j => (List.range n).foldl (fun acc i => acc.set (j * n + i)
        (rd (zero_diag n (infinitize n l)) (j * n + i))) acc)
      (List.replicate (n * n) 0)) b) :=
    rdE_write_fold n _ _ (rdE_zero_diag n _ (rdE_infinitize n l hl))
      (fun b => by rw [rd_replicate_zero]; left; rfl)
  rw [rd_deinfinitize]
  by_cases hcond : a < n * n ∧ a < ((List.range n).foldl
      (fun acc j => (List.range n).foldl (fun acc i => acc.set (j * n + i)
        (rd (zero_diag n (infinitize n l)) (j * n + i))) acc)
      (List.replicate (n * n) 0)).length ∧ rd ((List.range n).foldl
      (fun acc j => (List.range n).foldl (fun acc i => acc.set (j * n + i)
        (rd (zero_diag n (infinitize n l)) (j * n + i))) acc)
      (List.replicate (n * n) 0)) a = (n : ℤ) + 1
  · rw [if_pos hcond]; left; rfl
  · rw [if_neg hcond]
    rcases hS a with h | h | h
    · left; exact h
    · right; exact h
    · by_cases hlen : a < ((List.range n).foldl
          (fun acc j => (List.range n).foldl (fun acc i => acc.set (j * n + i)
            (rd (zero_diag n (infinitize n l)) (j * n + i))) acc)
          (List.replicate (n * n) 0)).length
      · exact absurd ⟨ha, hlen, h⟩ hcond
      · left
        exact rd_oob _ _ (by omega)

/-- Claim C9 (amended): for every 0/1 adjacency input, the matrix
returned by the OpenMP (shared-memory) variant satisfies the triangle
inequality whenever both legs are nonzero, i.e. both legs denote real
paths rather than the 0 = unreachable encoding.  The MPI variant is
explicitly excluded from the amendment: it violates even this
nonzero-legs form (n = 5, two workers, the directed 5-cycle gives
`result(3,0) = 3 > result(3,4) + result(4,0) = 1 + 1`, proved above), so
no triangle property holds of its returned matrix. -/
theorem C9_amended_triangle (V n : ℕ) (l : List ℤ) (fuel i j k : ℕ)
    (hn : 1 ≤ n) (hl : ∀ a, rd l a = 0 ∨ rd l a = 1)
    (hi : i < n) (hj : j < n) (hk : k < n)
    (h1 : rd (omp_result V n l fuel) (k * n + i) ≠ 0)
    (h2 : rd (omp_result V n l fuel) (j * n + k) ≠ 0) :
    rd (omp_result V n l fuel) (j * n + i) ≤
      rd (omp_result V n l fuel) (k * n + i) + rd (omp_result V n l fuel) (j * n + k) := by
  have hb : ∀ x y : ℕ, x < n → y < n → x * n + y < n * n := by
    intro x y hx hy
    have hb1 : (x + 1) * n ≤ n * n := Nat.mul_le_mul (by omega) (le_refl n)
    have hb2 : (x + 1) * n = x * n + n := by ring
    omega
  cases fuel with
  | zero =>
    exfalso
    apply h1
    rfl
  | succ f =>
    have e1 := omp_result_01 V n l f hn hl (k * n + i) (hb k i hk hi)
    have e2 := omp_result_01 V n l f hn hl (j * n + k) (hb j k hj hk)
    have e3 := omp_result_01 V n l f hn hl (j * n + i) (hb j i hj hi)
    rcases e1 with e1' | e1'
    · exact absurd e1' h1
    rcases e2 with e2' | e2'
    · exact absurd e2' h2
    rw [e1', e2']
    rcases e3 with e3' | e3' <;> rw [e3'] <;> omega

/-- Witness for the amended C9 on the 2-cycle `0 ↔ 1` at i = 0, j = 0,
k = 1. -/
theorem C9_amended_triangle_witness :
    rd (omp_result 8 2 [0, 1, 1, 0] 2) (0 * 2 + 0) ≤
      rd (omp_result 8 2 [0, 1, 1, 0] 2) (1 * 2 + 0) +
        rd (omp_result 8 2 [0, 1, 1, 0] 2) (0 * 2 + 1) :=
  C9_amended_triangle 8 2 [0, 1, 1, 0] 2 0 0 1 (by decide)
    (by
      intro a
      rcases a with _ | _ | _ | _ | a <;> simp [rd])
    (by decide) (by decide) (by decide) (by decide) (by decide)
